import Mathlib

/-
Verification of the Mandelbrot renderer (src/src/main.rs).

Shallow embedding conventions:
* Rust `f64` is modelled as exact rational arithmetic over `ℚ`; the
  `num::Complex<f64>` type becomes a structure with two `ℚ` fields.
* `usize`/`u32` become `Nat`; Rust integer division `/` on unsigned
  integers is `Nat` floor division.
* `escape_time`'s `for i in 0..limit` loop becomes structural recursion
  on the remaining fuel, carrying the loop index `i`.
* `render` writes every index `row*width + col` (row < height,
  col < width) of its slice exactly once, so its output is the pure
  row-major list `renderPure`; the `assert!` at its head is modelled by
  returning `none` when the buffer length differs from width*height.
* `main`'s band partitioning (`chunks_mut(rows_per_thread * bounds.0)`)
  always cuts at row boundaries, so it is modelled at row granularity by
  `chunkRows`: successive `(top, height)` pairs with each height equal to
  `rows_per_thread`, except that the final band holds the remaining rows.
  The per-band corner derivation and per-band `render` calls of `main`
  are modelled by `renderBand` / `renderBands`.
-/

namespace Mandelbrot

/-- Complex number with two coordinates, modelling `num::Complex<f64>`
with `f64` replaced by exact `ℚ` arithmetic. -/
structure Complex where
  re : ℚ
  im : ℚ
deriving DecidableEq

theorem Complex.ext {x y : Complex} (h1 : x.re = y.re) (h2 : x.im = y.im) : x = y := by
  cases x; cases y; simp_all

/-- `z.norm_sqr()` of the num crate: `re*re + im*im`. -/
def norm_sqr (z : Complex) : ℚ := z.re * z.re + z.im * z.im

/-- Complex addition, as used by `z*z + c`. -/
def cadd (x y : Complex) : Complex := ⟨x.re + y.re, x.im + y.im⟩

/-- Complex multiplication, as used by `z*z`. -/
def cmul (x y : Complex) : Complex :=
  ⟨x.re * y.re - x.im * y.im, x.re * y.im + x.im * y.re⟩

/-- One loop body step of `escape_time`: `z = z*z + c`. -/
def step (c z : Complex) : Complex := cadd (cmul z z) c

/-- The tail of `escape_time`'s loop: current `z`, current loop index `i`,
and remaining iterations (fuel). After updating `z` the squared norm is
tested against 4. -/
def escape_time_go (c : Complex) : Complex → Nat → Nat → Option Nat
  | _, _, 0 => none
  | z, i, fuel+1 =>
    if norm_sqr (step c z) > 4 then some i
    else escape_time_go c (step c z) (i+1) fuel

/-- `fn escape_time(c: Complex<f64>, limit: u32) -> Option<u32>` from
src/src/main.rs lines 24-34: iterate `z = z*z + c` from `z = 0`, return
`Some(i)` the first time `z.norm_sqr() > 4.0`, else `None` at the cap. -/
def escape_time (c : Complex) (limit : Nat) : Option Nat :=
  escape_time_go c ⟨0, 0⟩ 0 limit

/-- The orbit `z_0 = 0`, `z_{k+1} = z_k^2 + c`: after `k` loop
iterations `escape_time`'s `z` equals `orbit c k`. -/
def orbit (c : Complex) : Nat → Complex
  | 0 => ⟨0, 0⟩
  | n+1 => step c (orbit c n)

/-- `fn pixel_to_point` from src/src/main.rs lines 65-78. `bounds` is
`(width, height)` in pixels, `pixel` is `(column, row)`. -/
def pixel_to_point (bounds : Nat × Nat) (pixel : Nat × Nat)
    (upper_left lower_right : Complex) : Complex :=
  let width := lower_right.re - upper_left.re
  let height := upper_left.im - lower_right.im
  ⟨upper_left.re + (pixel.1 : ℚ) * width / (bounds.1 : ℚ),
   upper_left.im - (pixel.2 : ℚ) * height / (bounds.2 : ℚ)⟩

/-- The byte `render` stores at `(column, row)`:
`match escape_time(point, 255) { None => 0, Some(count) => 255 - count as u8 }`.
The `u8` cast of `count` is `count % 256`; the subtraction `255 - (count % 256)`
never underflows, so `Nat` subtraction models the `u8` subtraction exactly. -/
def renderPixel (bounds : Nat × Nat) (ul lr : Complex) (column row : Nat) : Nat :=
  match escape_time (pixel_to_point bounds (column, row) ul lr) 255 with
  | none => 0
  | some count => 255 - count % 256

/-- One row of `render`'s inner loop: `for column in 0..bounds.0`. -/
def renderRow (bounds : Nat × Nat) (ul lr : Complex) (row : Nat) : List Nat :=
  (List.range bounds.1).map (fun column => renderPixel bounds ul lr column row)

/-- Rows `row, row+1, ..., row+n-1` of the image, concatenated in
row-major order; `render`'s outer loop is `renderFrom _ _ _ 0 bounds.1`. -/
def renderFrom (bounds : Nat × Nat) (ul lr : Complex) : Nat → Nat → List Nat
  | _, 0 => []
  | row, n+1 => renderRow bounds ul lr row ++ renderFrom bounds ul lr (row+1) n

/-- The full buffer `render` leaves behind: every index `row*width+column`
is written exactly once, so the result is this pure row-major list. -/
def renderPure (bounds : Nat × Nat) (ul lr : Complex) : List Nat :=
  renderFrom bounds ul lr 0 bounds.2

/-- `fn render` from src/src/main.rs lines 82-100. The
`assert!(pixels.len() == bounds.0 * bounds.1)` is modelled by `none`
(panic); otherwise the loops overwrite the whole slice with `renderPure`. -/
def render (pixels : List Nat) (bounds : Nat × Nat) (ul lr : Complex) :
    Option (List Nat) :=
  if pixels.length = bounds.1 * bounds.2 then some (renderPure bounds ul lr)
  else none

/-- `let rows_per_thread = bounds.1 / threads + 1` (main.rs line 180),
with Rust `usize` division being floor division. -/
def rows_per_thread (height threads : Nat) : Nat := height / threads + 1

/-- Row-level view of `pixels.chunks_mut(rows_per_thread * bounds.0)`
(main.rs lines 183-184): starting at row `top` with `rem` rows left,
each chunk takes `min R rem` rows. Chunk boundaries of `chunks_mut`
always fall on row boundaries because the byte chunk size is `R * width`.
`chunks_mut` panics on chunk size 0, never reached here since in `main`
`R = height/threads + 1 ≥ 1`; the guard only ensures termination. -/
def chunkRows (R : Nat) : Nat → Nat → List (Nat × Nat)
  | _, 0 => []
  | top, n+1 =>
    let h := min R (n+1)
    if h0 : h = 0 then [] else (top, h) :: chunkRows R (top + h) (n + 1 - h)
termination_by _ n => n
decreasing_by simp_wf; omega

/-- One iteration of `main`'s band loop (main.rs lines 187-199): derive
the band's corners from the full window with `pixel_to_point`, then call
`render` on the band's zero-filled chunk (of `height * width` bytes). -/
def renderBand (bounds : Nat × Nat) (ul lr : Complex) (band : Nat × Nat) :
    Option (List Nat) :=
  let top := band.1
  let h := band.2
  let band_upper_left := pixel_to_point bounds (0, top) ul lr
  let band_lower_right := pixel_to_point bounds (bounds.1, top + h) ul lr
  render (List.replicate (h * bounds.1) 0) (bounds.1, h)
    band_upper_left band_lower_right

/-- Render each band and concatenate the band buffers back in order,
as the disjoint `chunks_mut` slices sit in `pixels`; `none` if any
band's `render` would panic. -/
def renderBands (bounds : Nat × Nat) (ul lr : Complex) :
    List (Nat × Nat) → Option (List Nat)
  | [] => some []
  | b :: bs =>
    match renderBand bounds ul lr b, renderBands bounds ul lr bs with
    | some xs, some ys => some (xs ++ ys)
    | _, _ => none

/-- The whole banded pipeline of `main` (lines 178-201): partition the
rows into bands of `rows_per_thread` rows and render each band from its
own derived corners. -/
def renderBanded (bounds : Nat × Nat) (ul lr : Complex) (threads : Nat) :
    Option (List Nat) :=
  renderBands bounds ul lr
    (chunkRows (rows_per_thread bounds.2 threads) 0 bounds.2)

/-- The orbit of `c = 0` is constantly `0`. -/
theorem orbit_zero (n : Nat) : orbit ⟨0, 0⟩ n = ⟨0, 0⟩ := by
  induction n with
  | zero => rfl
  | succ n ih => simp [orbit, ih, step, cadd, cmul]

theorem escape_time_go_zero (i fuel : Nat) :
    escape_time_go ⟨0, 0⟩ ⟨0, 0⟩ i fuel = none := by
  induction fuel generalizing i with
  | zero => rfl
  | succ fuel ih =>
    have hs : step ⟨0, 0⟩ ⟨0, 0⟩ = (⟨0, 0⟩ : Complex) := by
      simp [step, cadd, cmul]
    simp [escape_time_go, hs, norm_sqr, ih]

/-- C9: for every iteration cap `L ≥ 1`, `escape_time` applied to
`c = 0 + 0i` returns `None` ("did not escape"), since `0` is a fixed point
of `z → z² + c` when `c = 0`. -/
theorem escape_time_origin (L : Nat) (hL : 1 ≤ L) :
    escape_time ⟨0, 0⟩ L = none := by
  unfold escape_time
  exact escape_time_go_zero 0 L

/-- Witness for C9 at the concrete cap `L = 1`. -/
theorem escape_time_origin_witness :
    1 ≤ 1 ∧ escape_time ⟨0, 0⟩ 1 = none :=
  ⟨by decide, escape_time_origin 1 (by decide)⟩

/-- C4: with positive bounds, `pixel_to_point` at pixel `(0, 0)` is
exactly the window's upper-left corner and at the edge pixel
`(width, height)` exactly the lower-right corner. -/
theorem pixel_to_point_corners (W H : Nat) (ul lr : Complex)
    (hW : 0 < W) (hH : 0 < H) :
    pixel_to_point (W, H) (0, 0) ul lr = ul ∧
      pixel_to_point (W, H) (W, H) ul lr = lr := by
  have hW0 : (W : ℚ) ≠ 0 := Nat.cast_ne_zero.mpr (Nat.pos_iff_ne_zero.mp hW)
  have hH0 : (H : ℚ) ≠ 0 := Nat.cast_ne_zero.mpr (Nat.pos_iff_ne_zero.mp hH)
  constructor
  · apply Complex.ext <;> simp [pixel_to_point]
  · apply Complex.ext <;> (simp only [pixel_to_point]; field_simp)

/-- Witness for C4 on a 100 x 100 image with the spec's window. -/
theorem pixel_to_point_corners_witness :
    0 < 100 ∧ 0 < 100 ∧
      (pixel_to_point (100, 100) (0, 0) ⟨-1, 1⟩ ⟨1, -1⟩ = ⟨-1, 1⟩ ∧
        pixel_to_point (100, 100) (100, 100) ⟨-1, 1⟩ ⟨1, -1⟩ = ⟨1, -1⟩) :=
  ⟨by decide, by decide,
    pixel_to_point_corners 100 100 ⟨-1, 1⟩ ⟨1, -1⟩ (by decide) (by decide)⟩

/-- The end-to-end sanity case of the spec: on a 100 x 100 image with
window corners `-1+1i` and `1-1i`, pixel `(25, 75)` maps to `-0.5-0.5i`. -/
theorem pixel_to_point_sample :
    pixel_to_point (100, 100) (25, 75) ⟨-1, 1⟩ ⟨1, -1⟩ = ⟨-1/2, -1/2⟩ := by
  apply Complex.ext <;> (simp only [pixel_to_point]; norm_num)

/-- C7 counterexample: bounds `(3, 0)` are malformed (height `0`), the
zero-filled buffer has the matching length `3 * 0 = 0`, yet `render` does
not abort: the assert passes and it returns successfully (an empty
buffer), so malformed Image Bounds are not always rejected. -/
theorem render_zero_height_accepted :
    (3, 0).2 = 0 ∧
      render (List.replicate (3 * 0) 0) (3, 0) ⟨-1, 1⟩ ⟨1, -1⟩ = some [] := by
  constructor
  · rfl
  · simp [render, renderPure, renderFrom]

/-- C7 amended: `render`'s assert rejects exactly a buffer whose length
differs from `width * height`; zero width or height with a
length-consistent buffer passes the assert and is silently tolerated
(no pixel is written). -/
theorem render_assert_iff (pixels : List Nat) (bounds : Nat × Nat)
    (ul lr : Complex) :
    render pixels bounds ul lr = none ↔
      pixels.length ≠ bounds.1 * bounds.2 := by
  unfold render
  by_cases h : pixels.length = bounds.1 * bounds.2 <;> simp [h]

/-- Loop invariant of `escape_time`: starting the loop at index `i` with
`z = orbit c i` and `fuel` iterations left, the result is `some k` exactly
when `k` is the first index in `[i, i+fuel)` whose updated `z` leaves the
radius-2 circle. -/
theorem escape_time_go_some_iff (c : Complex) :
    ∀ (fuel i k : Nat),
      escape_time_go c (orbit c i) i fuel = some k ↔
        (i ≤ k ∧ k < i + fuel ∧ norm_sqr (orbit c (k + 1)) > 4 ∧
          ∀ j, i ≤ j → j < k → norm_sqr (orbit c (j + 1)) ≤ 4) := by
  intro fuel
  induction fuel with
  | zero =>
    intro i k
    simp only [escape_time_go]
    constructor
    · intro h; exact Option.noConfusion h
    · rintro ⟨h1, h2, -⟩; omega
  | succ fuel ih =>
    intro i k
    have hstep : step c (orbit c i) = orbit c (i + 1) := rfl
    simp only [escape_time_go, hstep]
    by_cases hesc : norm_sqr (orbit c (i + 1)) > 4
    · simp only [if_pos hesc]
      constructor
      · intro h
        injection h with h
        subst h
        exact ⟨le_refl i, by omega, hesc, fun j hj1 hj2 => by omega⟩
      · rintro ⟨h1, h2, h3, h4⟩
        have hki : k = i := by
          by_contra hne
          have hik : i < k := lt_of_le_of_ne h1 (Ne.symm hne)
          exact absurd hesc (not_lt.mpr (h4 i (le_refl i) hik))
        rw [hki]
    · simp only [if_neg hesc]
      rw [ih (i + 1) k]
      constructor
      · rintro ⟨h1, h2, h3, h4⟩
        refine ⟨by omega, by omega, h3, ?_⟩
        intro j hj1 hj2
        rcases Nat.eq_or_lt_of_le hj1 with rfl | hj
        · exact not_lt.mp hesc
        · exact h4 j hj hj2
      · rintro ⟨h1, h2, h3, h4⟩
        have hki : i < k := by
          rcases Nat.eq_or_lt_of_le h1 with rfl | h
          · exact absurd h3 hesc
          · exact h
        exact ⟨by omega, by omega, h3, fun j hj1 hj2 => h4 j (by omega) hj2⟩

/-- Loop invariant of `escape_time`, `none` case: the cap is reached
without escaping exactly when no index in `[i, i+fuel)` escapes. -/
theorem escape_time_go_none_iff (c : Complex) :
    ∀ (fuel i : Nat),
      escape_time_go c (orbit c i) i fuel = none ↔
        ∀ j, i ≤ j → j < i + fuel → norm_sqr (orbit c (j + 1)) ≤ 4 := by
  intro fuel
  induction fuel with
  | zero =>
    intro i
    simp only [escape_time_go]
    constructor
    · intro _ j hj1 hj2; omega
    · intro _; trivial
  | succ fuel ih =>
    intro i
    have hstep : step c (orbit c i) = orbit c (i + 1) := rfl
    simp only [escape_time_go, hstep]
    by_cases hesc : norm_sqr (orbit c (i + 1)) > 4
    · simp only [if_pos hesc]
      constructor
      · intro h; exact Option.noConfusion h
      · intro h; exact absurd hesc (not_lt.mpr (h i (le_refl i) (by omega)))
    · simp only [if_neg hesc]
      rw [ih (i + 1)]
      constructor
      · intro h j hj1 hj2
        rcases Nat.eq_or_lt_of_le hj1 with rfl | hj
        · exact not_lt.mp hesc
        · exact h j hj (by omega)
      · intro h j hj1 hj2
        exact h j (by omega) (by omega)

/-- C2: for a positive cap `L`, `escape_time c L = some i` exactly when
`i < L` and `i` is the first loop index at which the updated orbit value
has squared magnitude above 4, and `escape_time c L = none` exactly when
no index below `L` passes that test. -/
theorem escape_time_spec (c : Complex) (L : Nat) (hL : 0 < L) :
    (∀ i, escape_time c L = some i ↔
        (i < L ∧ norm_sqr (orbit c (i + 1)) > 4 ∧
          ∀ j < i, norm_sqr (orbit c (j + 1)) ≤ 4)) ∧
      (escape_time c L = none ↔ ∀ i < L, norm_sqr (orbit c (i + 1)) ≤ 4) := by
  have h0 : (⟨0, 0⟩ : Complex) = orbit c 0 := rfl
  constructor
  · intro i
    unfold escape_time
    rw [h0, escape_time_go_some_iff c L 0 i]
    constructor
    · rintro ⟨-, h2, h3, h4⟩
      exact ⟨by omega, h3, fun j hj => h4 j (by omega) hj⟩
    · rintro ⟨h1, h2, h3⟩
      exact ⟨by omega, by omega, h2, fun j _ hj => h3 j hj⟩
  · unfold escape_time
    rw [h0, escape_time_go_none_iff c L 0]
    constructor
    · intro h i hi
      exact h i (by omega) (by omega)
    · intro h j _ hj
      exact h j (by omega)

/-- Witness for C2 at `c = 3 + 0i`, `L = 2`: the spec's own example point
that escapes at iteration 0. -/
theorem escape_time_spec_witness :
    0 < 2 ∧
      ((∀ i, escape_time ⟨3, 0⟩ 2 = some i ↔
          (i < 2 ∧ norm_sqr (orbit ⟨3, 0⟩ (i + 1)) > 4 ∧
            ∀ j < i, norm_sqr (orbit ⟨3, 0⟩ (j + 1)) ≤ 4)) ∧
        (escape_time ⟨3, 0⟩ 2 = none ↔
          ∀ i < 2, norm_sqr (orbit ⟨3, 0⟩ (i + 1)) ≤ 4)) :=
  ⟨by decide, escape_time_spec ⟨3, 0⟩ 2 (by decide)⟩

/-- An escape report is always below the cap. -/
theorem escape_time_some_lt (c : Complex) (L i : Nat)
    (h : escape_time c L = some i) : i < L := by
  have h' : escape_time_go c (orbit c 0) 0 L = some i := h
  obtain ⟨-, h2, -, -⟩ := (escape_time_go_some_iff c L 0 i).mp h'
  omega

/-- C5: under the window invariant and positive bounds, for pixels within
bounds the real part of `pixel_to_point` is non-decreasing in the column
and the imaginary part is non-increasing in the row. -/
theorem pixel_to_point_monotone (W H : Nat) (ul lr : Complex)
    (hW : 0 < W) (hH : 0 < H)
    (hre : ul.re < lr.re) (him : lr.im < ul.im)
    (c c' r r' : Nat) (hc : c ≤ c') (hc' : c' < W) (hr : r ≤ r') (hr' : r' < H) :
    (pixel_to_point (W, H) (c, r) ul lr).re ≤
        (pixel_to_point (W, H) (c', r) ul lr).re ∧
      (pixel_to_point (W, H) (c, r') ul lr).im ≤
        (pixel_to_point (W, H) (c, r) ul lr).im := by
  have hWpos : (0 : ℚ) < (W : ℚ) := by exact_mod_cast hW
  have hHpos : (0 : ℚ) < (H : ℚ) := by exact_mod_cast hH
  constructor
  · simp only [pixel_to_point]
    have h1 : (c : ℚ) * (lr.re - ul.re) ≤ (c' : ℚ) * (lr.re - ul.re) := by
      apply mul_le_mul_of_nonneg_right _ (by linarith)
      exact_mod_cast hc
    have h2 := (div_le_div_right hWpos).mpr h1
    linarith
  · simp only [pixel_to_point]
    have h1 : (r : ℚ) * (ul.im - lr.im) ≤ (r' : ℚ) * (ul.im - lr.im) := by
      apply mul_le_mul_of_nonneg_right _ (by linarith)
      exact_mod_cast hr
    have h2 := (div_le_div_right hHpos).mpr h1
    linarith

/-- Witness for C5 on a 100 x 100 image with the spec's window, columns
10 ≤ 20 and rows 30 ≤ 40. -/
theorem pixel_to_point_monotone_witness :
    0 < 100 ∧ (⟨-1, 1⟩ : Complex).re < (⟨1, -1⟩ : Complex).re ∧
      ((pixel_to_point (100, 100) (10, 30) ⟨-1, 1⟩ ⟨1, -1⟩).re ≤
          (pixel_to_point (100, 100) (20, 30) ⟨-1, 1⟩ ⟨1, -1⟩).re ∧
        (pixel_to_point (100, 100) (10, 40) ⟨-1, 1⟩ ⟨1, -1⟩).im ≤
          (pixel_to_point (100, 100) (10, 30) ⟨-1, 1⟩ ⟨1, -1⟩).im) :=
  ⟨by decide, by norm_num,
    pixel_to_point_monotone 100 100 ⟨-1, 1⟩ ⟨1, -1⟩ (by decide) (by decide)
      (by norm_num) (by norm_num) 10 20 30 40 (by decide) (by decide)
      (by decide) (by decide)⟩

theorem renderRow_length (b : Nat × Nat) (ul lr : Complex) (row : Nat) :
    (renderRow b ul lr row).length = b.1 := by
  simp [renderRow]

theorem renderRow_getElem (b : Nat × Nat) (ul lr : Complex) (row col : Nat)
    (hcol : col < b.1) :
    (renderRow b ul lr row)[col]? = some (renderPixel b ul lr col row) := by
  simp [renderRow, List.getElem?_map, List.getElem?_range, hcol]

/-- Row-major indexing: the byte stored at `row * width + col` of the
rendered buffer is the pixel computed for `(col, s + row)`. -/
theorem renderFrom_getElem (b : Nat × Nat) (ul lr : Complex) :
    ∀ (n s row col : Nat), row < n → col < b.1 →
      (renderFrom b ul lr s n)[row * b.1 + col]? =
        some (renderPixel b ul lr col (s + row)) := by
  intro n
  induction n with
  | zero => intro s row col h; omega
  | succ n ih =>
    intro s row col hrow hcol
    simp only [renderFrom]
    cases row with
    | zero =>
      rw [List.getElem?_append_left]
      · simpa using renderRow_getElem b ul lr s col hcol
      · simpa [renderRow_length] using hcol
    | succ r =>
      rw [List.getElem?_append_right (by simp [renderRow_length]; nlinarith)]
      have hidx : (r + 1) * b.1 + col - (renderRow b ul lr s).length =
          r * b.1 + col := by
        simp [renderRow_length]; ring_nf; omega
      rw [hidx]
      have := ih (s + 1) r col (by omega) hcol
      rw [this]
      have hs : s + 1 + r = s + (r + 1) := by omega
      rw [hs]

/-- C6: for every in-bounds pixel, the byte stored by `render` (cap 255)
is 0 when `escape_time` returns `none` and `255 - i` when it returns
`some i`. -/
theorem render_intensity (W H : Nat) (ul lr : Complex) (row col : Nat)
    (hrow : row < H) (hcol : col < W) :
    (escape_time (pixel_to_point (W, H) (col, row) ul lr) 255 = none →
        (renderPure (W, H) ul lr)[row * W + col]? = some 0) ∧
      ∀ i, escape_time (pixel_to_point (W, H) (col, row) ul lr) 255 = some i →
        (renderPure (W, H) ul lr)[row * W + col]? = some (255 - i) := by
  have hget := renderFrom_getElem (W, H) ul lr H 0 row col hrow hcol
  simp only [Nat.zero_add] at hget
  constructor
  · intro h
    rw [renderPure, hget, renderPixel, h]
  · intro i h
    have hi : i < 255 :=
      escape_time_some_lt (pixel_to_point (W, H) (col, row) ul lr) 255 i h
    rw [renderPure, hget, renderPixel, h]
    simp [Nat.mod_eq_of_lt (show i < 256 by omega)]

/-- Witness for C6 at the pixel `(0, 0)` of a 2 x 2 image over the spec's
window (the point `-1 + 1i`). -/
theorem render_intensity_witness :
    0 < 2 ∧ 0 < 2 ∧
      ((escape_time (pixel_to_point (2, 2) (0, 0) ⟨-1, 1⟩ ⟨1, -1⟩) 255 = none →
          (renderPure (2, 2) ⟨-1, 1⟩ ⟨1, -1⟩)[0 * 2 + 0]? = some 0) ∧
        ∀ i, escape_time (pixel_to_point (2, 2) (0, 0) ⟨-1, 1⟩ ⟨1, -1⟩) 255 =
            some i →
          (renderPure (2, 2) ⟨-1, 1⟩ ⟨1, -1⟩)[0 * 2 + 0]? = some (255 - i)) :=
  ⟨by decide, by decide,
    render_intensity 2 2 ⟨-1, 1⟩ ⟨1, -1⟩ 0 0 (by decide) (by decide)⟩

/-- C10: for every in-bounds pixel rendered with cap 255, an escaping
point yields a byte in `[1, 255]` equal to `255 - i` (no `u8` truncation,
since `i ≤ 254`), and the byte 0 is stored exactly when the point did not
escape within the cap. -/
theorem render_interior_marker (W H : Nat) (ul lr : Complex) (row col : Nat)
    (hrow : row < H) (hcol : col < W) :
    (∀ i, escape_time (pixel_to_point (W, H) (col, row) ul lr) 255 = some i →
        i ≤ 254 ∧
          ∃ v, (renderPure (W, H) ul lr)[row * W + col]? = some v ∧
            1 ≤ v ∧ v ≤ 255 ∧ v = 255 - i) ∧
      ((renderPure (W, H) ul lr)[row * W + col]? = some 0 ↔
        escape_time (pixel_to_point (W, H) (col, row) ul lr) 255 = none) := by
  have hget := renderFrom_getElem (W, H) ul lr H 0 row col hrow hcol
  simp only [Nat.zero_add] at hget
  constructor
  · intro i h
    have hi : i < 255 :=
      escape_time_some_lt (pixel_to_point (W, H) (col, row) ul lr) 255 i h
    refine ⟨by omega, 255 - i, ?_, by omega, by omega, rfl⟩
    rw [renderPure, hget, renderPixel, h]
    simp [Nat.mod_eq_of_lt (show i < 256 by omega)]
  · constructor
    · intro h0
      cases h : escape_time (pixel_to_point (W, H) (col, row) ul lr) 255 with
      | none => rfl
      | some i =>
        have hi : i < 255 :=
          escape_time_some_lt (pixel_to_point (W, H) (col, row) ul lr) 255 i h
        rw [renderPure, hget, renderPixel, h] at h0
        simp [Nat.mod_eq_of_lt (show i < 256 by omega)] at h0
        exact absurd h0 (by omega)
    · intro h
      rw [renderPure, hget, renderPixel, h]

/-- Witness for C10 at the pixel `(1, 1)` of a 2 x 2 image over the
spec's window. -/
theorem render_interior_marker_witness :
    1 < 2 ∧
      ((∀ i, escape_time (pixel_to_point (2, 2) (1, 1) ⟨-1, 1⟩ ⟨1, -1⟩) 255 =
            some i →
          i ≤ 254 ∧
            ∃ v, (renderPure (2, 2) ⟨-1, 1⟩ ⟨1, -1⟩)[1 * 2 + 1]? = some v ∧
              1 ≤ v ∧ v ≤ 255 ∧ v = 255 - i) ∧
        ((renderPure (2, 2) ⟨-1, 1⟩ ⟨1, -1⟩)[1 * 2 + 1]? = some 0 ↔
          escape_time (pixel_to_point (2, 2) (1, 1) ⟨-1, 1⟩ ⟨1, -1⟩) 255 =
            none)) :=
  ⟨by decide, render_interior_marker 2 2 ⟨-1, 1⟩ ⟨1, -1⟩ 1 1 (by decide)
    (by decide)⟩

/-- The rows covered by a list of `(top, height)` bands, in order. -/
def bandsUnion : List (Nat × Nat) → List Nat
  | [] => []
  | b :: bs => (List.range b.2).map (fun x => b.1 + x) ++ bandsUnion bs

theorem range_map_split (top h m : Nat) (hle : h ≤ m) :
    (List.range m).map (fun x => top + x) =
      (List.range h).map (fun x => top + x) ++
        (List.range (m - h)).map (fun x => top + h + x) := by
  obtain ⟨k, rfl⟩ : ∃ k, m = h + k := ⟨m - h, by omega⟩
  rw [Nat.add_sub_cancel_left, List.range_add, List.map_append, List.map_map]
  congr 1
  apply List.map_congr_left
  intro a _
  simp [Function.comp]
  omega

/-- The bands of `chunkRows` cover exactly the rows `[top, top + rem)`,
in increasing order, each exactly once. -/
theorem chunkRows_union (R : Nat) (hR : 1 ≤ R) :
    ∀ rem top,
      bandsUnion (chunkRows R top rem) =
        (List.range rem).map (fun x => top + x) := by
  intro rem
  induction rem using Nat.strong_induction_on with
  | _ rem ih =>
    intro top
    cases rem with
    | zero => simp [chunkRows, bandsUnion]
    | succ n =>
      simp only [chunkRows]
      rw [dif_neg (by omega)]
      simp only [bandsUnion]
      rw [ih (n + 1 - min R (n + 1)) (by omega) (top + min R (n + 1))]
      exact (range_map_split top (min R (n + 1)) (n + 1) (by omega)).symm

/-- Every band of `chunkRows` starts at or after `top`, ends at or before
`top + rem`, and holds at least one row. -/
theorem chunkRows_mem_bounds (R : Nat) (hR : 1 ≤ R) :
    ∀ rem top b, b ∈ chunkRows R top rem →
      top ≤ b.1 ∧ b.1 + b.2 ≤ top + rem ∧ 1 ≤ b.2 := by
  intro rem
  induction rem using Nat.strong_induction_on with
  | _ rem ih =>
    intro top b hb
    cases rem with
    | zero => simp [chunkRows] at hb
    | succ n =>
      simp only [chunkRows] at hb
      rw [dif_neg (by omega)] at hb
      rcases List.mem_cons.mp hb with rfl | hb'
      · exact ⟨le_refl _, by omega, by omega⟩
      · obtain ⟨h1, h2, h3⟩ :=
          ih (n + 1 - min R (n + 1)) (by omega) (top + min R (n + 1)) b hb'
        exact ⟨by omega, by omega, h3⟩

/-- The bands of `chunkRows` are pairwise disjoint and listed in
increasing row order: each band ends at or before the next begins. -/
theorem chunkRows_pairwise (R : Nat) (hR : 1 ≤ R) :
    ∀ rem top,
      (chunkRows R top rem).Pairwise (fun a b => a.1 + a.2 ≤ b.1) := by
  intro rem
  induction rem using Nat.strong_induction_on with
  | _ rem ih =>
    intro top
    cases rem with
    | zero => simp [chunkRows]
    | succ n =>
      simp only [chunkRows]
      rw [dif_neg (by omega)]
      rw [List.pairwise_cons]
      constructor
      · intro b hb
        obtain ⟨h1, -, -⟩ :=
          chunkRows_mem_bounds R hR (n + 1 - min R (n + 1))
            (top + min R (n + 1)) b hb
        omega
      · exact ih (n + 1 - min R (n + 1)) (by omega) (top + min R (n + 1))

theorem chunkRows_head (R : Nat) (rem top : Nat) (b : Nat × Nat)
    (h : (chunkRows R top rem).head? = some b) : b.1 = top := by
  cases rem with
  | zero => simp [chunkRows] at h
  | succ n =>
    simp only [chunkRows] at h
    by_cases h0 : min R (n + 1) = 0
    · rw [dif_pos h0] at h
      simp at h
    · rw [dif_neg h0] at h
      simp only [List.head?_cons] at h
      injection h with h
      rw [← h]

/-- The bands of `chunkRows` are contiguous: each band starts exactly
where the previous one ends. -/
theorem chunkRows_chain (R : Nat) (hR : 1 ≤ R) :
    ∀ rem top,
      (chunkRows R top rem).Chain' (fun a b => a.1 + a.2 = b.1) := by
  intro rem
  induction rem using Nat.strong_induction_on with
  | _ rem ih =>
    intro top
    cases rem with
    | zero => simp [chunkRows]
    | succ n =>
      simp only [chunkRows]
      rw [dif_neg (by omega)]
      rw [List.chain'_cons']
      constructor
      · intro b hb
        have := chunkRows_head R (n + 1 - min R (n + 1)) (top + min R (n + 1))
          b (by simpa using hb)
        omega
      · exact ih (n + 1 - min R (n + 1)) (by omega) (top + min R (n + 1))

/-- C3: for `H > 0` rows and `W ≥ 1` workers, the bands produced by
cutting into chunks of `rows_per_thread = H / W + 1` rows are pairwise
disjoint, sorted, contiguous, non-empty, and cover exactly `[0, H)`
with no gaps or overlaps. -/
theorem band_partition (H W : Nat) (hH : 0 < H) (hW : 1 ≤ W) :
    bandsUnion (chunkRows (rows_per_thread H W) 0 H) = List.range H ∧
      (chunkRows (rows_per_thread H W) 0 H).Pairwise
        (fun a b => a.1 + a.2 ≤ b.1) ∧
      (chunkRows (rows_per_thread H W) 0 H).Chain'
        (fun a b => a.1 + a.2 = b.1) ∧
      ∀ b ∈ chunkRows (rows_per_thread H W) 0 H,
        1 ≤ b.2 ∧ b.1 + b.2 ≤ H := by
  have hR : 1 ≤ rows_per_thread H W := Nat.succ_le_succ (Nat.zero_le _)
  refine ⟨?_, chunkRows_pairwise _ hR H 0, chunkRows_chain _ hR H 0, ?_⟩
  · rw [chunkRows_union _ hR H 0]
    simp
  · intro b hb
    obtain ⟨-, h2, h3⟩ := chunkRows_mem_bounds _ hR H 0 b hb
    exact ⟨h3, by omega⟩

/-- Witness for C3 at `H = 5` rows and `W = 2` workers
(`rows_per_thread = 3`, bands `(0,3)` and `(3,2)`). -/
theorem band_partition_witness :
    0 < 5 ∧ 1 ≤ 2 ∧
      (bandsUnion (chunkRows (rows_per_thread 5 2) 0 5) = List.range 5 ∧
        (chunkRows (rows_per_thread 5 2) 0 5).Pairwise
          (fun a b => a.1 + a.2 ≤ b.1) ∧
        (chunkRows (rows_per_thread 5 2) 0 5).Chain'
          (fun a b => a.1 + a.2 = b.1) ∧
        ∀ b ∈ chunkRows (rows_per_thread 5 2) 0 5,
          1 ≤ b.2 ∧ b.1 + b.2 ≤ 5) :=
  ⟨by decide, by decide, band_partition 5 2 (by decide) (by decide)⟩

/-- Key refinement step: a pixel of a band, mapped through the band's
derived corners, lands on exactly the same complex point as the
corresponding pixel of the full image (exact arithmetic). -/
theorem pixel_band_eq (W H h top c r : Nat) (ul lr : Complex)
    (hW : 0 < W) (hH : 0 < H) (hh : 0 < h) :
    pixel_to_point (W, h) (c, r)
        (pixel_to_point (W, H) (0, top) ul lr)
        (pixel_to_point (W, H) (W, top + h) ul lr) =
      pixel_to_point (W, H) (c, top + r) ul lr := by
  have hW0 : (W : ℚ) ≠ 0 := Nat.cast_ne_zero.mpr (Nat.pos_iff_ne_zero.mp hW)
  have hH0 : (H : ℚ) ≠ 0 := Nat.cast_ne_zero.mpr (Nat.pos_iff_ne_zero.mp hH)
  have hh0 : (h : ℚ) ≠ 0 := Nat.cast_ne_zero.mpr (Nat.pos_iff_ne_zero.mp hh)
  apply Complex.ext <;>
    (simp only [pixel_to_point]; push_cast; field_simp; try ring)

theorem renderRow_band (W H h top r : Nat) (ul lr : Complex)
    (hW : 0 < W) (hH : 0 < H) (hh : 0 < h) :
    renderRow (W, h) (pixel_to_point (W, H) (0, top) ul lr)
        (pixel_to_point (W, H) (W, top + h) ul lr) r =
      renderRow (W, H) ul lr (top + r) := by
  unfold renderRow
  apply List.map_congr_left
  intro col _
  unfold renderPixel
  rw [pixel_band_eq W H h top col r ul lr hW hH hh]

/-- Rendering rows of a band from its derived corners gives the same
bytes as the corresponding rows of the full image. -/
theorem renderFrom_band (W H h top : Nat) (ul lr : Complex)
    (hW : 0 < W) (hH : 0 < H) (hh : 0 < h) :
    ∀ m s,
      renderFrom (W, h) (pixel_to_point (W, H) (0, top) ul lr)
          (pixel_to_point (W, H) (W, top + h) ul lr) s m =
        renderFrom (W, H) ul lr (top + s) m := by
  intro m
  induction m with
  | zero => intro s; rfl
  | succ n ih =>
    intro s
    simp only [renderFrom]
    rw [renderRow_band W H h top s ul lr hW hH hh, ih (s + 1)]
    rfl

theorem renderFrom_append (b : Nat × Nat) (ul lr : Complex) :
    ∀ m k s,
      renderFrom b ul lr s (m + k) =
        renderFrom b ul lr s m ++ renderFrom b ul lr (s + m) k := by
  intro m
  induction m with
  | zero => intro k s; simp [renderFrom]
  | succ n ih =>
    intro k s
    have h1 : n + 1 + k = (n + k) + 1 := by omega
    rw [h1]
    simp only [renderFrom]
    rw [ih k (s + 1), ← List.append_assoc]
    have h2 : s + 1 + n = s + (n + 1) := by omega
    rw [h2]

/-- Rendering the bands of `chunkRows` one by one from their derived
corners and concatenating reproduces rows `[top, top + rem)` of the full
image. -/
theorem renderBands_chunk (W H : Nat) (ul lr : Complex) (R : Nat)
    (hW : 0 < W) (hH : 0 < H) (hR : 1 ≤ R) :
    ∀ rem top,
      renderBands (W, H) ul lr (chunkRows R top rem) =
        some (renderFrom (W, H) ul lr top rem) := by
  intro rem
  induction rem using Nat.strong_induction_on with
  | _ rem ih =>
    intro top
    cases rem with
    | zero => simp [chunkRows, renderBands, renderFrom]
    | succ n =>
      simp only [chunkRows]
      rw [dif_neg (by omega)]
      simp only [renderBands]
      have hband : renderBand (W, H) ul lr (top, min R (n + 1)) =
          some (renderFrom (W, H) ul lr top (min R (n + 1))) := by
        simp only [renderBand, render, List.length_replicate]
        rw [if_pos (Nat.mul_comm _ _)]
        have := renderFrom_band W H (min R (n + 1)) top ul lr hW hH
          (by omega) (min R (n + 1)) 0
        simp only [Nat.add_zero] at this
        rw [renderPure, this]
      rw [hband, ih (n + 1 - min R (n + 1)) (by omega) (top + min R (n + 1))]
      show some (renderFrom (W, H) ul lr top (min R (n + 1)) ++
          renderFrom (W, H) ul lr (top + min R (n + 1))
            (n + 1 - min R (n + 1))) = _
      rw [← renderFrom_append (W, H) ul lr (min R (n + 1))
        (n + 1 - min R (n + 1)) top]
      have h3 : min R (n + 1) + (n + 1 - min R (n + 1)) = n + 1 := by omega
      rw [h3]

/-- C1: for positive bounds, a window satisfying its invariant and any
worker count `T ≥ 1`, `main`'s banded pipeline (bands of
`rows_per_thread` rows, each band's corners derived via `pixel_to_point`
from the full window, each band rendered independently by `render`)
produces a buffer byte-identical to one call of `render` on the whole
image; the worker count never changes the output. -/
theorem render_banded_eq (W H T : Nat) (ul lr : Complex)
    (hW : 0 < W) (hH : 0 < H) (hT : 1 ≤ T)
    (hre : ul.re < lr.re) (him : lr.im < ul.im) :
    renderBanded (W, H) ul lr T =
      render (List.replicate (W * H) 0) (W, H) ul lr := by
  have hR : 1 ≤ rows_per_thread H T := Nat.succ_le_succ (Nat.zero_le _)
  unfold renderBanded
  rw [renderBands_chunk W H ul lr (rows_per_thread H T) hW hH hR H 0]
  unfold render
  rw [if_pos (by simp)]
  rfl

/-- Witness for C1: a 2 x 3 image over the spec's window rendered with 8
workers equals the single whole-image `render` call. -/
theorem render_banded_eq_witness :
    0 < 2 ∧ 0 < 3 ∧ 1 ≤ 8 ∧ (⟨-1, 1⟩ : Complex).re < (⟨1, -1⟩ : Complex).re ∧
      renderBanded (2, 3) ⟨-1, 1⟩ ⟨1, -1⟩ 8 =
        render (List.replicate (2 * 3) 0) (2, 3) ⟨-1, 1⟩ ⟨1, -1⟩ :=
  ⟨by decide, by decide, by decide, by norm_num,
    render_banded_eq 2 3 8 ⟨-1, 1⟩ ⟨1, -1⟩ (by decide) (by decide) (by decide)
      (by norm_num) (by norm_num)⟩

end Mandelbrot
